import Mathlib

/-!
# BC5 converter: embedding and verification

Shallow embedding of the `bc5-converter` command-line tool and of the BC5
codec it drives.  The CLI (`bc5-converter.go`) is embedded from its source.
The codec itself lives in the external `go-bc5` library whose source is not
part of this repository, so the codec components (HeaderCodec, BlockCodec,
PlaneCodec, BlueReconstructor, Codec) are modelled from the specification.

Bytes and 8-bit samples are modelled as `ℕ` (with `% 256` applied where the
original types are 8-bit); stream dimensions as `ℕ`; palette values as `ℤ`
because the interpolation formula subtracts endpoints.  All definitions are
executable.
-/

namespace BC5

/-! ## Errors and blue-channel modes -/

/-- Modelled from the spec: the codec's error taxonomy (§7): `FormatError`
for header/stream-shape problems, `DimensionError` for zero-area images or
mismatched byte counts. -/
inductive BC5Error where
  | FormatError : BC5Error
  | DimensionError : BC5Error
deriving DecidableEq, Repr

/-- Modelled from the spec: the closed set of blue-channel reconstruction
policies (§3): Zero, One, Greyscale, ComputeNormal. -/
inductive BlueMode where
  | Zero : BlueMode
  | One : BlueMode
  | Greyscale : BlueMode
  | ComputeNormal : BlueMode
deriving DecidableEq, Repr

/-! ## HeaderCodec -/

/-- Modelled from the spec: the 4-byte ASCII magic `"BC5 "` =
`0x42 0x43 0x35 0x20` (§6 wire format). -/
def magic : List ℕ := [0x42, 0x43, 0x35, 0x20]

/-- Modelled from the spec: a number serialized as an unsigned 32-bit
big-endian integer (§4.1); values are reduced mod 2^32 as a `uint32` would
be. -/
def be32 (n : ℕ) : List ℕ :=
  [n / 2 ^ 24 % 256, n / 2 ^ 16 % 256, n / 2 ^ 8 % 256, n % 256]

/-- Reassemble four bytes read big-endian into the number they denote. -/
def readBE32 (b0 b1 b2 b3 : ℕ) : ℕ :=
  ((b0 * 256 + b1) * 256 + b2) * 256 + b3

/-- Modelled from the spec: `HeaderCodec.encode` (§4.1) — the 4-byte magic,
then width and height as unsigned 32-bit big-endian integers. -/
def headerEncode (w h : ℕ) : List ℕ :=
  magic ++ be32 w ++ be32 h

/-- Modelled from the spec: `HeaderCodec.decode` (§4.1) — fails with
`FormatError` if fewer than 12 bytes are available or the first 4 bytes are
not the magic; otherwise returns the two dimensions and the remainder of
the buffer. -/
def headerDecode (bytes : List ℕ) : Except BC5Error (ℕ × ℕ × List ℕ) :=
  if bytes.take 4 = magic ∧ 12 ≤ bytes.length then
    .ok (readBE32 (bytes.getD 4 0) (bytes.getD 5 0) (bytes.getD 6 0) (bytes.getD 7 0),
         readBE32 (bytes.getD 8 0) (bytes.getD 9 0) (bytes.getD 10 0) (bytes.getD 11 0),
         bytes.drop 12)
  else
    .error .FormatError

/-! ## BlockCodec -/

/-- Modelled from the spec: the block palette (§4.2).  Endpoints are the
first two block bytes.  If `endpoint0 > endpoint1` the 8-step palette is
`round(e0 + (e1-e0)·i/7)` for `i = 0..7`; otherwise the 6-step palette is
`round(e0 + (e1-e0)·i/5)` for `i = 0..5` with anchors `palette[6] = 0`,
`palette[7] = 255`.  `round` is round-half-up, computed exactly over ℤ:
`round((7·e0 + (e1-e0)·i)/7) = ⌊(14·e0 + 2·(e1-e0)·i + 7)/14⌋`. -/
def palette (e0 e1 : ℕ) (i : ℕ) : ℤ :=
  if e1 < e0 then
    (14 * e0 + 2 * ((e1 : ℤ) - e0) * i + 7) / 14
  else if i ≤ 5 then
    (10 * e0 + 2 * ((e1 : ℤ) - e0) * i + 5) / 10
  else if i = 6 then 0
  else 255

/-- Keep the candidate index whose palette entry is strictly nearer;
on ties the earlier (lower) index is kept. -/
def pickNearer (f : ℕ → ℤ) (best i : ℕ) : ℕ :=
  if f i < f best then i else best

/-- Modelled from the spec: index assignment (§4.2 step 4) — each sample
gets the index of its nearest palette entry, ties broken toward the lower
index. -/
def nearestIdx (e0 e1 : ℕ) (s : ℕ) : ℕ :=
  (List.range 8).foldl (pickNearer fun i => |(s : ℤ) - palette e0 e1 i|) 0

/-- Modelled from the spec: total quantization error of a candidate
encoding (§4.2 step 3) — sum of squared per-sample error under
nearest-entry index assignment. -/
def totalSqErr (e0 e1 : ℕ) (s : List ℕ) : ℤ :=
  (s.map fun (x : ℕ) => ((x : ℤ) - palette e0 e1 (nearestIdx e0 e1 x)) ^ 2).sum

/-- Digits-to-number in base `b`, first digit least significant.  Used for
the low-bit-first packing of 3-bit indices (§4.2 step 5). -/
def natOfDigits (b : ℕ) : List ℕ → ℕ
  | [] => 0
  | d :: ds => d + b * natOfDigits b ds

/-- The `k` bytes of `n`, least significant byte first. -/
def bytesLE : ℕ → ℕ → List ℕ
  | 0, _ => []
  | k + 1, n => n % 256 :: bytesLE k (n / 256)

/-- Modelled from the spec: pack 16 three-bit indices low-bit-first into
6 bytes (48 bits, §4.2 step 5). -/
def packIdx (idxs : List ℕ) : List ℕ :=
  bytesLE 6 (natOfDigits 8 idxs)

/-- Modelled from the spec: unpack the 16 three-bit indices from the 6
index bytes, low-bit-first (§4.2 decode). -/
def unpackIdx (bytes : List ℕ) : List ℕ :=
  (List.range 16).map fun j => natOfDigits 256 bytes / 8 ^ j % 8

/-- Minimum of a block's samples; samples are bytes (≤ 255), so folding
`min` from 255 computes the true minimum. -/
def blockLo (s : List ℕ) : ℕ := s.foldr min 255

/-- Maximum of a block's samples. -/
def blockHi (s : List ℕ) : ℕ := s.foldr max 0

/-- Modelled from the spec: `BlockCodec.encode` (§4.2) — 16 row-major
samples to 8 bytes.  Degenerate blocks (`lo = hi`) store both endpoints
equal to `lo` and all-zero indices.  Otherwise both interpolation modes are
evaluated and the one with lower total squared error is kept (8-step on a
tie): 8-step stores `endpoint0 = hi, endpoint1 = lo`, 6-step stores
`endpoint0 = lo, endpoint1 = hi`. -/
def blockEncode (s : List ℕ) : List ℕ :=
  let lo := blockLo s
  let hi := blockHi s
  if lo = hi then
    [lo, lo, 0, 0, 0, 0, 0, 0]
  else if totalSqErr hi lo s ≤ totalSqErr lo hi s then
    hi :: lo :: packIdx (s.map (nearestIdx hi lo))
  else
    lo :: hi :: packIdx (s.map (nearestIdx lo hi))

/-- Modelled from the spec: `BlockCodec.decode` (§4.2) — read the two
endpoint bytes, select the palette by comparing them, unpack the 16 indices
and output `palette[index]` per sample.  Never fails on a well-formed
8-byte block. -/
def blockDecode (bytes : List ℕ) : List ℕ :=
  match bytes with
  | e0 :: e1 :: idxBytes => (unpackIdx idxBytes).map fun i => (palette e0 e1 i).toNat
  | _ => []

/-! ## Images, planes and the plane codec -/

/-- One RGBA pixel, four 8-bit components. -/
structure Pixel where
  r : ℕ
  g : ℕ
  b : ℕ
  a : ℕ
deriving DecidableEq, Repr

/-- An image: positive-intent dimensions and a row-major pixel accessor
(§3 data model; §9 narrow capability contract `width/height/sampleAt`). -/
structure Image where
  width : ℕ
  height : ℕ
  pix : ℕ → ℕ → Pixel

/-- A single-channel plane (§3): dimensions and an 8-bit sample accessor. -/
structure Plane where
  width : ℕ
  height : ℕ
  sample : ℕ → ℕ → ℕ

/-- Modelled from the spec: padded sampling (§3) — pixels beyond the true
image edge are filled by clamping to the nearest edge pixel. -/
def sampleClamped (p : Plane) (x y : ℕ) : ℕ :=
  p.sample (min x (p.width - 1)) (min y (p.height - 1))

/-- Number of block columns: `ceil(width/4)`. -/
def blockCols (w : ℕ) : ℕ := (w + 3) / 4

/-- Number of block rows: `ceil(height/4)`. -/
def blockRows (h : ℕ) : ℕ := (h + 3) / 4

/-- Modelled from the spec: the 16 row-major samples of the 4×4 block at
block-row `br`, block-column `bc`, taken from the edge-clamped plane
(§4.3). -/
def blockAt (p : Plane) (br bc : ℕ) : List ℕ :=
  (List.range 4).flatMap fun dy =>
    (List.range 4).map fun dx => sampleClamped p (4 * bc + dx) (4 * br + dy)

/-- Modelled from the spec: `PlaneCodec.encode` viewed per block (§4.3) —
the list of 8-byte encoded blocks in row-major block order. -/
def planeBlocks (p : Plane) : List (List ℕ) :=
  (List.range (blockRows p.height)).flatMap fun br =>
    (List.range (blockCols p.width)).map fun bc => blockEncode (blockAt p br bc)

/-- The red channel plane of an image (8-bit component). -/
def redPlane (img : Image) : Plane :=
  { width := img.width, height := img.height, sample := fun x y => (img.pix x y).r % 256 }

/-- The green channel plane of an image (8-bit component). -/
def greenPlane (img : Image) : Plane :=
  { width := img.width, height := img.height, sample := fun x y => (img.pix x y).g % 256 }

/-! ## BlueReconstructor -/

/-- Modelled from the spec: `BlueReconstructor` (§4.5).  For
`ComputeNormal` the spec formula is `x = red/127.5 − 1`, `y = green/127.5 − 1`,
`z = sqrt(max(0, 1 − x² − y²))`, `blue = round((z+1)·127.5)` clamped to
`[0,255]`.  This is computed exactly over the integers:
`round((z+1)·127.5) = ⌊127.5·z⌋ + 128` and, with
`A = (2·red−255)² + (2·green−255)²`, one has `1 − x² − y² = (65025 − A)/65025`
and `⌊127.5·√((65025−A)/65025)⌋ = Nat.sqrt ((65025 − A)/4)` when `A ≤ 65025`
(else `z = 0`). -/
def blueReconstruct (m : BlueMode) (red green : ℕ) : ℕ :=
  match m with
  | .Zero => 0
  | .One => 255
  | .Greyscale => red
  | .ComputeNormal =>
      let A : ℤ := (2 * (red : ℤ) - 255) ^ 2 + (2 * (green : ℤ) - 255) ^ 2
      if A ≤ 65025 then
        min 255 (128 + Nat.sqrt (((65025 - A) / 4).toNat))
      else 128

/-! ## Codec (orchestrator) -/

/-- Modelled from the spec: `Codec.encode` (§4.4) — `DimensionError` on a
zero-area image, otherwise the header followed by the two planes' block
streams interleaved per block position, red sub-block then green
sub-block. -/
def codecEncode (img : Image) : Except BC5Error (List ℕ) :=
  if img.width = 0 ∨ img.height = 0 then
    .error .DimensionError
  else
    .ok (headerEncode img.width img.height ++
      ((planeBlocks (redPlane img)).zip (planeBlocks (greenPlane img))).flatMap
        fun rg => rg.1 ++ rg.2)

/-- Modelled from the spec: `Codec.decode` (§4.4, §4.3) — parse the header
(propagating `FormatError`), fail with `DimensionError` unless the
remaining byte count equals `16·ceil(w/4)·ceil(h/4)`, then reconstruct the
padded planes from the interleaved blocks, crop to `width × height`, and
derive blue via the `BlueReconstructor`; alpha is fully opaque. -/
def codecDecode (bytes : List ℕ) (bm : BlueMode) : Except BC5Error Image :=
  match headerDecode bytes with
  | .error e => .error e
  | .ok (w, h, rest) =>
    if rest.length = 16 * blockCols w * blockRows h then
      .ok { width := w, height := h, pix := fun x y =>
        let idx := y / 4 * blockCols w + x / 4
        let rBlock := blockDecode ((rest.drop (16 * idx)).take 8)
        let gBlock := blockDecode ((rest.drop (16 * idx + 8)).take 8)
        let pos := y % 4 * 4 + x % 4
        let r := rBlock.getD pos 0
        let g := gBlock.getD pos 0
        { r := r, g := g, b := blueReconstruct bm r g, a := 255 } }
    else
      .error .DimensionError

end BC5

namespace CLI

open BC5

/-- Function `parseBlueMode` from `bc5-converter.go`: the `switch` maps `"1"` to
`One`, `"gs"` to `Greyscale`, `"cn"` to `ComputeNormal`, and everything
else (including the documented `"0"`) to `Zero`. -/
def parseBlueMode (bm : String) : BlueMode :=
  if bm = "1" then .One
  else if bm = "gs" then .Greyscale
  else if bm = "cn" then .ComputeNormal
  else .Zero

/-- The console messages the tool prints, as far as the batch-processing
claims are concerned.  Constructors carry a file name exactly when the
corresponding `fmt.Printf` format string includes one. -/
inductive Msg where
  | unableToOpen (file : String)
  | errorReadingFile
  | compressing (file : String)
  | errorDecodingBC5
  | decompressing (file : String)
  | errorCreatingOutput
  | panicAbort
deriving DecidableEq, Repr

/-- Environment for `decompressFile`: what opening each file yields
(`none` = open error), and whether creating / writing the output file
succeeds. -/
structure DecompEnv where
  contents : String → Option (List ℕ)
  createOk : String → Bool
  encodeOk : String → Bool

/-- Function `decompressFile` from `bc5-converter.go`, as the pair (messages
printed, `some exitCode` if the call terminates the process via
`os.Exit`).  Open errors print the file name and exit 1; BC5 decode errors
print without the file name and exit 1; output-file creation errors exit 1;
container-encode errors are printed but do not exit. -/
def decompressFile (env : DecompEnv) (bm : BlueMode) (file : String) :
    List Msg × Option ℕ :=
  match env.contents file with
  | none => ([.unableToOpen file], some 1)
  | some bytes =>
    match codecDecode bytes bm with
    | .error _ => ([.errorDecodingBC5], some 1)
    | .ok _ =>
      if env.createOk file then
        if env.encodeOk file then ([.decompressing file], none)
        else ([.decompressing file, .errorCreatingOutput], none)
      else ([.decompressing file, .errorCreatingOutput], some 1)

/-- Environment for `compressFile`: whether each file opens, what image it
decodes to (`none` = image-decode error), and whether the output file can
be created and written. -/
structure CompEnv where
  openOk : String → Bool
  imageOf : String → Option Image
  createOk : String → Bool
  writeOk : String → Bool

/-- Function `compressFile` from `bc5-converter.go`.  Open errors print the file
name and exit 1; image-decode errors print without the file name and exit
1; a BC5 library error panics; output-file creation errors exit 1; a write
error from `bc5.Encode` panics. -/
def compressFile (env : CompEnv) (file : String) : List Msg × Option ℕ :=
  if env.openOk file then
    match env.imageOf file with
    | none => ([.errorReadingFile], some 1)
    | some img =>
      match codecEncode img with
      | .error _ => ([.compressing file, .panicAbort], some 2)
      | .ok _ =>
        if env.createOk file then
          if env.writeOk file then ([.compressing file], none)
          else ([.compressing file, .panicAbort], some 2)
        else ([.compressing file, .errorCreatingOutput], some 1)
  else ([.unableToOpen file], some 1)

/-- The conversion loop of `main`: run the per-file step over the batch in
order; an `os.Exit` (a `some` exit code) from any step terminates the
process, abandoning the remaining files. -/
def runBatch (step : String → List Msg × Option ℕ) : List String → List Msg × Option ℕ
  | [] => ([], none)
  | f :: fs =>
    match step f with
    | (ms, some c) => (ms, some c)
    | (ms, none) =>
      let rec' := runBatch step fs
      (ms ++ rec'.1, rec'.2)

/-- A concrete two-file batch environment: `"bad.bc5"` fails to open, while
`"good.bc5"` holds the spec's §8 scenario stream (4×4 all-zero image) and
decompresses fine on its own. -/
def envEx : DecompEnv :=
  { contents := fun f =>
      if f = "good.bc5" then some (headerEncode 4 4 ++ List.replicate 16 0) else none,
    createOk := fun _ => true,
    encodeOk := fun _ => true }

end CLI

/-! ## Helper lemmas: header -/

namespace BC5

/-- The header followed by any body is the explicit 12-byte list followed by
the body. -/
theorem headerEncode_append (w h : ℕ) (body : List ℕ) :
    headerEncode w h ++ body =
      0x42 :: 0x43 :: 0x35 :: 0x20 ::
      (w / 2 ^ 24 % 256) :: (w / 2 ^ 16 % 256) :: (w / 2 ^ 8 % 256) :: (w % 256) ::
      (h / 2 ^ 24 % 256) :: (h / 2 ^ 16 % 256) :: (h / 2 ^ 8 % 256) :: (h % 256) :: body := rfl

/-- Reading back four big-endian bytes of `n` gives `n` reduced mod `2^32`. -/
theorem readBE32_be32 (n : ℕ) :
    readBE32 (n / 2 ^ 24 % 256) (n / 2 ^ 16 % 256) (n / 2 ^ 8 % 256) (n % 256) =
      n % 2 ^ 32 := by
  unfold readBE32
  omega

/-- Decoding a header (with any trailing body) recovers the dimensions mod
`2^32` and the body. -/
theorem headerDecode_headerEncode_append (w h : ℕ) (body : List ℕ) :
    headerDecode (headerEncode w h ++ body) = .ok (w % 2 ^ 32, h % 2 ^ 32, body) := by
  rw [headerEncode_append]
  unfold headerDecode
  rw [if_pos]
  · show Except.ok
        (readBE32 (w / 2 ^ 24 % 256) (w / 2 ^ 16 % 256) (w / 2 ^ 8 % 256) (w % 256),
         readBE32 (h / 2 ^ 24 % 256) (h / 2 ^ 16 % 256) (h / 2 ^ 8 % 256) (h % 256),
         body) = _
    rw [readBE32_be32, readBE32_be32]
  · refine ⟨rfl, ?_⟩
    show 12 ≤ (0x42 :: 0x43 :: 0x35 :: 0x20 ::
      (w / 2 ^ 24 % 256) :: (w / 2 ^ 16 % 256) :: (w / 2 ^ 8 % 256) :: (w % 256) ::
      (h / 2 ^ 24 % 256) :: (h / 2 ^ 16 % 256) :: (h / 2 ^ 8 % 256) :: (h % 256) :: body).length
    simp [List.length_cons]

end BC5

open BC5 CLI

/-- C5: for all `width, height ∈ [1, 2^32-1]`, decoding the encoded header
succeeds and returns exactly `(width, height)` with an empty remainder. -/
theorem header_roundtrip (w h : ℕ) (hw1 : 1 ≤ w) (hw2 : w ≤ 2 ^ 32 - 1)
    (hh1 : 1 ≤ h) (hh2 : h ≤ 2 ^ 32 - 1) :
    headerDecode (headerEncode w h) = .ok (w, h, ([] : List ℕ)) := by
  have := headerDecode_headerEncode_append w h []
  rw [List.append_nil] at this
  rw [this, Nat.mod_eq_of_lt (by omega), Nat.mod_eq_of_lt (by omega)]

/-- Witness for C5 at `(width, height) = (7, 9)`. -/
theorem header_roundtrip_witness :
    headerDecode (headerEncode 7 9) = .ok (7, 9, ([] : List ℕ)) :=
  header_roundtrip 7 9 (by decide) (by decide) (by decide) (by decide)

/-- C6: for every width and height, `headerEncode` produces exactly 12
bytes: the ASCII magic `"BC5 "` = `0x42 0x43 0x35 0x20`, then the width and
then the height, each as an unsigned 32-bit big-endian integer (i.e. the
value stored is the dimension reduced to 32 bits, recovered by big-endian
reassembly). -/
theorem headerEncode_layout (w h : ℕ) :
    (headerEncode w h).length = 12 ∧
    (headerEncode w h).take 4 = [0x42, 0x43, 0x35, 0x20] ∧
    readBE32 ((headerEncode w h).getD 4 0) ((headerEncode w h).getD 5 0)
        ((headerEncode w h).getD 6 0) ((headerEncode w h).getD 7 0) = w % 2 ^ 32 ∧
    readBE32 ((headerEncode w h).getD 8 0) ((headerEncode w h).getD 9 0)
        ((headerEncode w h).getD 10 0) ((headerEncode w h).getD 11 0) = h % 2 ^ 32 := by
  have hrep : headerEncode w h =
      0x42 :: 0x43 :: 0x35 :: 0x20 ::
      (w / 2 ^ 24 % 256) :: (w / 2 ^ 16 % 256) :: (w / 2 ^ 8 % 256) :: (w % 256) ::
      (h / 2 ^ 24 % 256) :: (h / 2 ^ 16 % 256) :: (h / 2 ^ 8 % 256) :: (h % 256) :: [] := by
    have := headerEncode_append w h []
    rwa [List.append_nil] at this
  rw [hrep]
  refine ⟨rfl, rfl, ?_, ?_⟩
  · exact readBE32_be32 w
  · exact readBE32_be32 h

/-- C7: on any buffer shorter than 12 bytes, or whose first 4 bytes are not
the magic, `headerDecode` — and hence `codecDecode` — returns `FormatError`
and produces no image.  (The embedded decoders consume only the supplied
list, so no bytes beyond the buffer are ever accessed.) -/
theorem headerDecode_malformed (bs : List ℕ) (bm : BlueMode)
    (hbad : bs.length < 12 ∨ bs.take 4 ≠ magic) :
    headerDecode bs = .error .FormatError ∧ codecDecode bs bm = .error .FormatError := by
  have hdr : headerDecode bs = .error .FormatError := by
    unfold headerDecode
    rw [if_neg]
    intro ⟨h1, h2⟩
    rcases hbad with h | h
    · omega
    · exact h h1
  refine ⟨hdr, ?_⟩
  unfold codecDecode
  rw [hdr]

/-- Witness for C7 on the 5-byte buffer `[1, 2, 3, 4, 5]`. -/
theorem headerDecode_malformed_witness :
    headerDecode [1, 2, 3, 4, 5] = .error .FormatError ∧
      codecDecode [1, 2, 3, 4, 5] .Zero = .error .FormatError :=
  headerDecode_malformed [1, 2, 3, 4, 5] .Zero (by left; decide)

/-! ## Helper lemmas: stream lengths -/

namespace BC5

/-- Lemma: `bytesLE` always produces exactly `k` bytes. -/
theorem bytesLE_length (k n : ℕ) : (bytesLE k n).length = k := by
  induction k generalizing n with
  | zero => rfl
  | succ k ih => simp [bytesLE, ih]

/-- Every encoded block is exactly 8 bytes. -/
theorem blockEncode_length (s : List ℕ) : (blockEncode s).length = 8 := by
  unfold blockEncode
  dsimp only
  split_ifs <;> simp [packIdx, bytesLE_length]

/-- A flatMap whose pieces have constant length `k` over `n` elements. -/
theorem length_flatMap_const {α β : Type} (l : List α) (f : α → List β) (k : ℕ)
    (h : ∀ a ∈ l, (f a).length = k) :
    (l.flatMap f).length = l.length * k := by
  induction l with
  | nil => simp
  | cons a t ih =>
    simp only [List.flatMap_cons, List.length_append, List.length_cons]
    rw [h a (by simp), ih (fun b hb => h b (by simp [hb]))]
    ring

/-- A plane produces exactly `blockRows · blockCols` encoded blocks. -/
theorem planeBlocks_length (p : Plane) :
    (planeBlocks p).length = blockRows p.height * blockCols p.width := by
  unfold planeBlocks
  rw [length_flatMap_const _ _ (blockCols p.width)]
  · simp
  · intro a _
    simp

/-- Every member of `planeBlocks` is an 8-byte encoded block. -/
theorem planeBlocks_mem_length (p : Plane) (b : List ℕ) (hb : b ∈ planeBlocks p) :
    b.length = 8 := by
  unfold planeBlocks at hb
  simp only [List.mem_flatMap, List.mem_map, List.mem_range] at hb
  obtain ⟨br, _, bc, _, rfl⟩ := hb
  exact blockEncode_length _

/-- The interleaved red/green block stream of an image has exactly 16 bytes
per block position. -/
theorem interleaved_length (img : Image) :
    (((planeBlocks (redPlane img)).zip (planeBlocks (greenPlane img))).flatMap
        fun rg => rg.1 ++ rg.2).length =
      16 * blockCols img.width * blockRows img.height := by
  rw [length_flatMap_const _ _ 16]
  · rw [List.length_zip, planeBlocks_length, planeBlocks_length]
    simp only [redPlane, greenPlane]
    rw [min_self]
    ring
  · intro rg hrg
    have := List.of_mem_zip hrg
    rw [List.length_append,
      planeBlocks_mem_length _ _ this.1, planeBlocks_mem_length _ _ this.2]

end BC5

/-- C2: for every image with positive width and height, `codecEncode`
succeeds and the byte stream it produces has length
`12 + 16 · ⌈width/4⌉ · ⌈height/4⌉`. -/
theorem codecEncode_length (img : Image) (hw : 0 < img.width) (hh : 0 < img.height) :
    ∃ bs, codecEncode img = .ok bs ∧
      bs.length = 12 + 16 * blockCols img.width * blockRows img.height := by
  have henc : codecEncode img = .ok (headerEncode img.width img.height ++
      ((planeBlocks (redPlane img)).zip (planeBlocks (greenPlane img))).flatMap
        fun rg => rg.1 ++ rg.2) := by
    unfold codecEncode
    rw [if_neg (by omega)]
  refine ⟨_, henc, ?_⟩
  rw [List.length_append, interleaved_length img]
  have h12 : (headerEncode img.width img.height).length = 12 := rfl
  rw [h12]

/-- Witness for C2 on a concrete 5×3 image. -/
theorem codecEncode_length_witness :
    ∃ bs, codecEncode { width := 5, height := 3, pix := fun x y => ⟨x * 20 + y, x + y * 30, 0, 255⟩ } = .ok bs ∧
      bs.length = 12 + 16 * blockCols 5 * blockRows 3 :=
  codecEncode_length _ (by decide) (by decide)

/-! ## Helper lemmas: index packing -/

namespace BC5

/-- Recombining the `k` little-endian bytes of `n` recovers `n mod 256^k`. -/
theorem natOfDigits_bytesLE (k n : ℕ) :
    natOfDigits 256 (bytesLE k n) = n % 256 ^ k := by
  induction k generalizing n with
  | zero => simp [bytesLE, natOfDigits, Nat.mod_one]
  | succ k ih =>
    simp only [bytesLE, natOfDigits, ih]
    rw [pow_succ, mul_comm (256 ^ k) 256, Nat.mod_mul]

/-- A digit string with digits below `b` denotes a value below
`b ^ length`. -/
theorem natOfDigits_lt (b : ℕ) (hb : 0 < b) (l : List ℕ) (hd : ∀ d ∈ l, d < b) :
    natOfDigits b l < b ^ l.length := by
  induction l with
  | nil => simpa [natOfDigits]
  | cons d t ih =>
    have hdb : d < b := hd d (by simp)
    have ht : natOfDigits b t < b ^ t.length := ih (fun x hx => hd x (by simp [hx]))
    calc d + b * natOfDigits b t < b + b * natOfDigits b t := by omega
      _ = b * (natOfDigits b t + 1) := by ring
      _ ≤ b * b ^ t.length := Nat.mul_le_mul_left b ht
      _ = b ^ (d :: t).length := by rw [List.length_cons, pow_succ, mul_comm]

/-- Extracting the `j`-th base-8 digit of a packed digit string recovers
the original digit. -/
theorem natOfDigits_extract (l : List ℕ) (hd : ∀ d ∈ l, d < 8) :
    ∀ j, j < l.length → natOfDigits 8 l / 8 ^ j % 8 = l.getD j 0 := by
  induction l with
  | nil => intro j hj; simp at hj
  | cons d t ih =>
    intro j hj
    match j with
    | 0 =>
      simp only [natOfDigits, pow_zero, Nat.div_one, List.getD_cons_zero]
      rw [Nat.add_mul_mod_self_left, Nat.mod_eq_of_lt (hd d (by simp))]
    | j + 1 =>
      have hstep : natOfDigits 8 (d :: t) / 8 = natOfDigits 8 t := by
        simp only [natOfDigits]
        rw [Nat.add_mul_div_left _ _ (by norm_num : (0:ℕ) < 8),
          Nat.div_eq_of_lt (hd d (by simp)), Nat.zero_add]
      rw [pow_succ, mul_comm, ← Nat.div_div_eq_div_mul, hstep, List.getD_cons_succ]
      exact ih (fun x hx => hd x (by simp [hx])) j (by simpa using hj)

/-- Reading a list back off its `getD` accessors is the identity. -/
theorem range_map_getD (l : List ℕ) (n : ℕ) (hl : l.length = n) :
    (List.range n).map (fun j => l.getD j 0) = l := by
  induction l generalizing n with
  | nil => subst hl; rfl
  | cons d t ih =>
    subst hl
    rw [List.length_cons, List.range_succ_eq_map, List.map_cons, List.map_map]
    simp only [List.getD_cons_zero, Function.comp]
    rw [List.cons.injEq]
    exact ⟨rfl, ih t.length rfl⟩

/-- Unpacking packed 3-bit indices recovers them exactly (16 indices, each
below 8). -/
theorem unpackIdx_packIdx (l : List ℕ) (hlen : l.length = 16) (hd : ∀ d ∈ l, d < 8) :
    unpackIdx (packIdx l) = l := by
  unfold unpackIdx packIdx
  rw [natOfDigits_bytesLE]
  have hlt : natOfDigits 8 l < 256 ^ 6 := by
    have := natOfDigits_lt 8 (by norm_num) l hd
    rw [hlen] at this
    calc natOfDigits 8 l < 8 ^ 16 := this
      _ ≤ 256 ^ 6 := by norm_num
  rw [Nat.mod_eq_of_lt hlt]
  have hext : ∀ j ∈ List.range 16, natOfDigits 8 l / 8 ^ j % 8 = l.getD j 0 := by
    intro j hj
    exact natOfDigits_extract l hd j (by rw [hlen]; exact List.mem_range.mp hj)
  rw [List.map_congr_left hext]
  exact range_map_getD l 16 hlen

/-! ## Helper lemmas: block min/max -/

/-- The folded minimum is a lower bound for every sample. -/
theorem blockLo_le (s : List ℕ) (x : ℕ) (hx : x ∈ s) : blockLo s ≤ x := by
  unfold blockLo
  induction s with
  | nil => cases hx
  | cons a t ih =>
    rcases List.mem_cons.mp hx with rfl | hx'
    · exact min_le_left _ _
    · exact le_trans (min_le_right _ _) (ih hx')

/-- The folded maximum is an upper bound for every sample. -/
theorem le_blockHi (s : List ℕ) (x : ℕ) (hx : x ∈ s) : x ≤ blockHi s := by
  unfold blockHi
  induction s with
  | nil => cases hx
  | cons a t ih =>
    rcases List.mem_cons.mp hx with rfl | hx'
    · exact le_max_left _ _
    · exact le_trans (ih hx') (le_max_right _ _)

/-- On a uniform nonempty block of byte value `v` the folded minimum is
`v`. -/
theorem blockLo_replicate (n v : ℕ) (hn : 0 < n) (hv : v ≤ 255) :
    blockLo (List.replicate n v) = v := by
  unfold blockLo
  induction n with
  | zero => omega
  | succ n ih =>
    rw [List.replicate_succ, List.foldr_cons]
    match n with
    | 0 => simpa using Nat.min_eq_left hv
    | m + 1 => rw [ih (by omega)]; exact min_self v

/-- On a uniform nonempty block of value `v` the folded maximum is `v`. -/
theorem blockHi_replicate (n v : ℕ) (hn : 0 < n) :
    blockHi (List.replicate n v) = v := by
  unfold blockHi
  induction n with
  | zero => omega
  | succ n ih =>
    rw [List.replicate_succ, List.foldr_cons]
    match n with
    | 0 => simpa using Nat.max_zero v
    | m + 1 => rw [ih (by omega)]; exact max_self v

end BC5

/-- C3: a uniform 4×4 block whose 16 samples all equal `v` round-trips
through `blockEncode` then `blockDecode` to 16 samples all exactly `v`, for
every byte value `v ∈ [0, 255]`. -/
theorem uniform_block_roundtrip (v : ℕ) (hv : v ≤ 255) :
    blockDecode (blockEncode (List.replicate 16 v)) = List.replicate 16 v := by
  have hlo : blockLo (List.replicate 16 v) = v := blockLo_replicate 16 v (by norm_num) hv
  have hhi : blockHi (List.replicate 16 v) = v := blockHi_replicate 16 v (by norm_num)
  have henc : blockEncode (List.replicate 16 v) = [v, v, 0, 0, 0, 0, 0, 0] := by
    unfold blockEncode
    dsimp only
    rw [hlo, hhi, if_pos rfl]
  rw [henc]
  show (unpackIdx [0, 0, 0, 0, 0, 0]).map (fun i => (palette v v i).toNat) =
    List.replicate 16 v
  unfold unpackIdx
  have hpal : palette v v 0 = (v : ℤ) := by
    unfold palette
    rw [if_neg (lt_irrefl v), if_pos (by norm_num)]
    omega
  have hzero : ∀ j ∈ List.range 16,
      natOfDigits 256 [0, 0, 0, 0, 0, 0] / 8 ^ j % 8 = 0 := by
    intro j _
    have : natOfDigits 256 [0, 0, 0, 0, 0, 0] = 0 := rfl
    rw [this, Nat.zero_div, Nat.zero_mod]
  rw [List.map_congr_left hzero, List.map_map]
  have : ((fun i => (palette v v i).toNat) ∘ fun _ => 0) = fun (_ : ℕ) => v := by
    funext j
    simp only [Function.comp]
    rw [hpal]
    exact Int.toNat_natCast v
  rw [this, List.map_const']
  simp

/-- Witness for C3 at `v = 200`. -/
theorem uniform_block_roundtrip_witness :
    blockDecode (blockEncode (List.replicate 16 200)) = List.replicate 16 200 :=
  uniform_block_roundtrip 200 (by norm_num)

/-- C10 (implicit, from `parseBlueMode` in `bc5-converter.go`): the parser
is total over the closed variant set — `"1"` maps to `One`, `"gs"` to
`Greyscale`, `"cn"` to `ComputeNormal`, and every other string (the
documented `"0"` included) silently selects `Zero`. -/
theorem parseBlueMode_total :
    parseBlueMode "1" = .One ∧
    parseBlueMode "gs" = .Greyscale ∧
    parseBlueMode "cn" = .ComputeNormal ∧
    parseBlueMode "0" = .Zero ∧
    ∀ s : String, s ≠ "1" → s ≠ "gs" → s ≠ "cn" → parseBlueMode s = .Zero := by
  refine ⟨by decide, by decide, by decide, by decide, ?_⟩
  intro s h1 h2 h3
  unfold parseBlueMode
  rw [if_neg h1, if_neg h2, if_neg h3]

/-- Witness for C10 on the unrecognized string `"zero"`. -/
theorem parseBlueMode_total_witness : parseBlueMode "zero" = .Zero :=
  parseBlueMode_total.2.2.2.2 "zero" (by decide) (by decide) (by decide)

/-- C1 counterexample: in the batch `["bad.bc5", "good.bc5"]` where only
the first file is malformed (it fails to open), the program reports the
open error and exits with status 1 — the remaining file is never processed,
even though on its own it would convert successfully. -/
theorem batch_abort_counterexample :
    runBatch (decompressFile envEx .Zero) ["bad.bc5", "good.bc5"] =
      ([.unableToOpen "bad.bc5"], some 1) ∧
    decompressFile envEx .Zero "good.bc5" = ([.decompressing "good.bc5"], none) := by
  constructor
  · rfl
  · rfl

/-- C1 amended: a failure on one malformed input (open error, image-decode
error, or BC5 decode error) is reported — with the file name for open
errors, without it for image-decode and BC5-decode errors — and the program
then exits with status 1, aborting the whole batch; the remaining files are
not processed. -/
theorem batch_abort_on_failure :
    (∀ (env : DecompEnv) (bm : BlueMode) (f : String) (rest : List String),
      env.contents f = none →
      runBatch (decompressFile env bm) (f :: rest) = ([.unableToOpen f], some 1)) ∧
    (∀ (env : DecompEnv) (bm : BlueMode) (f : String) (rest : List String)
        (bytes : List ℕ) (e : BC5Error),
      env.contents f = some bytes → codecDecode bytes bm = .error e →
      runBatch (decompressFile env bm) (f :: rest) = ([.errorDecodingBC5], some 1)) ∧
    (∀ (env : CompEnv) (f : String) (rest : List String),
      env.openOk f = false →
      runBatch (compressFile env) (f :: rest) = ([.unableToOpen f], some 1)) ∧
    (∀ (env : CompEnv) (f : String) (rest : List String),
      env.openOk f = true → env.imageOf f = none →
      runBatch (compressFile env) (f :: rest) = ([.errorReadingFile], some 1)) := by
  refine ⟨?_, ?_, ?_, ?_⟩
  · intro env bm f rest h
    simp [runBatch, decompressFile, h]
  · intro env bm f rest bytes e h1 h2
    simp [runBatch, decompressFile, h1, h2]
  · intro env f rest h
    simp [runBatch, compressFile, h]
  · intro env f rest h1 h2
    simp [runBatch, compressFile, h1, h2]

/-- Witness for the amended C1: the open failure of `"bad.bc5"` aborts the
concrete two-file batch with exit status 1. -/
theorem batch_abort_on_failure_witness :
    runBatch (decompressFile envEx .Zero) ["bad.bc5", "good.bc5"] =
      ([.unableToOpen "bad.bc5"], some 1) :=
  batch_abort_on_failure.1 envEx .Zero "bad.bc5" ["good.bc5"] (by decide)

/-- C9: the `BlueReconstructor` always returns a byte in `[0, 255]`; it
returns `0` for `Zero`, `255` for `One`, the red component for `Greyscale`,
and for `ComputeNormal` with `red = green = 128` it returns exactly `255`
(the spec's "approximately 255"). -/
theorem blueReconstruct_spec :
    (∀ (m : BlueMode) (r g : ℕ), r ≤ 255 → g ≤ 255 → blueReconstruct m r g ≤ 255) ∧
    (∀ r g : ℕ, blueReconstruct .Zero r g = 0) ∧
    (∀ r g : ℕ, blueReconstruct .One r g = 255) ∧
    (∀ r g : ℕ, blueReconstruct .Greyscale r g = r) ∧
    blueReconstruct .ComputeNormal 128 128 = 255 := by
  refine ⟨?_, fun _ _ => rfl, fun _ _ => rfl, fun _ _ => rfl, ?_⟩
  case refine_2 =>
    have hs : Nat.sqrt 16255 = 127 := by
      have h1 : (127 : ℕ) ≤ Nat.sqrt 16255 := Nat.le_sqrt.mpr (by norm_num)
      have h2 : Nat.sqrt 16255 < 128 := Nat.sqrt_lt.mpr (by norm_num)
      omega
    unfold blueReconstruct
    dsimp only
    rw [show (2 * ((128 : ℕ) : ℤ) - 255) ^ 2 + (2 * ((128 : ℕ) : ℤ) - 255) ^ 2 = 2 by
      norm_num]
    rw [if_pos (by norm_num : (2 : ℤ) ≤ 65025)]
    rw [show (((65025 : ℤ) - 2) / 4).toNat = 16255 from rfl, hs]
    decide
  intro m r g hr _
  match m with
  | .Zero => exact Nat.zero_le 255
  | .One => exact le_refl 255
  | .Greyscale => exact hr
  | .ComputeNormal =>
    unfold blueReconstruct
    dsimp only
    split
    · exact min_le_left 255 _
    · norm_num

/-- Witness for C9's range statement at `Greyscale`, `red = 7`,
`green = 9`. -/
theorem blueReconstruct_spec_witness : blueReconstruct .Greyscale 7 9 ≤ 255 :=
  blueReconstruct_spec.1 .Greyscale 7 9 (by decide) (by decide)

/-! ## Helper lemmas: nearest palette index -/

namespace BC5

/-- The fold underlying `nearestIdx` returns an index whose distance is a
lower bound of the start's and of every candidate's distance. -/
theorem foldl_pickNearer_le (f : ℕ → ℤ) (l : List ℕ) :
    ∀ b : ℕ, f (l.foldl (pickNearer f) b) ≤ f b ∧
      ∀ i ∈ l, f (l.foldl (pickNearer f) b) ≤ f i := by
  induction l with
  | nil => intro b; exact ⟨le_refl _, by simp⟩
  | cons a t ih =>
    intro b
    rw [List.foldl_cons]
    have hb' := ih (pickNearer f b a)
    have hba : f (pickNearer f b a) ≤ f b ∧ f (pickNearer f b a) ≤ f a := by
      unfold pickNearer
      split
      · exact ⟨le_of_lt (by assumption), le_refl _⟩
      · exact ⟨le_refl _, le_of_not_lt (by assumption)⟩
    refine ⟨le_trans hb'.1 hba.1, ?_⟩
    intro i hi
    rcases List.mem_cons.mp hi with rfl | hit
    · exact le_trans hb'.1 hba.2
    · exact hb'.2 i hit

/-- The fold underlying `nearestIdx` returns either the start value or a
member of the candidate list. -/
theorem foldl_pickNearer_mem (f : ℕ → ℤ) (l : List ℕ) :
    ∀ b : ℕ, l.foldl (pickNearer f) b = b ∨ l.foldl (pickNearer f) b ∈ l := by
  induction l with
  | nil => intro b; left; rfl
  | cons a t ih =>
    intro b
    rw [List.foldl_cons]
    rcases ih (pickNearer f b a) with h | h
    · rw [h]
      unfold pickNearer
      split
      · right; exact List.mem_cons_self a t
      · left; rfl
    · right; exact List.mem_cons_of_mem a h

/-- The chosen index is always one of the 8 palette slots. -/
theorem nearestIdx_le7 (e0 e1 s : ℕ) : nearestIdx e0 e1 s ≤ 7 := by
  unfold nearestIdx
  rcases foldl_pickNearer_mem (fun i => |(s : ℤ) - palette e0 e1 i|) (List.range 8) 0 with h | h
  · omega
  · have := List.mem_range.mp h
    omega

/-- The chosen index is at least as close as any of the 8 palette slots. -/
theorem nearestIdx_min (e0 e1 s i : ℕ) (hi : i ≤ 7) :
    |(s : ℤ) - palette e0 e1 (nearestIdx e0 e1 s)| ≤ |(s : ℤ) - palette e0 e1 i| := by
  unfold nearestIdx
  exact (foldl_pickNearer_le (fun i => |(s : ℤ) - palette e0 e1 i|) (List.range 8) 0).2
    i (List.mem_range.mpr (by omega))

/-- Palette entries of a valid slot are never negative. -/
theorem palette_nonneg (e0 e1 i : ℕ) (hi : i ≤ 7) : 0 ≤ palette e0 e1 i := by
  unfold palette
  split
  · apply Int.ediv_nonneg _ (by norm_num)
    rename_i hlt
    have h1 : ((e1 : ℤ) - e0) ≤ 0 := by
      have : (e1 : ℤ) < e0 := by exact_mod_cast hlt
      omega
    have h2 : ((i : ℤ) - 7) ≤ 0 := by
      have : (i : ℤ) ≤ 7 := by exact_mod_cast hi
      omega
    have h3 : 0 ≤ ((e1 : ℤ) - e0) * ((i : ℤ) - 7) := by nlinarith [h1, h2]
    have h4 : (0 : ℤ) ≤ e1 := Int.natCast_nonneg e1
    nlinarith [h3, h4]
  · split
    · apply Int.ediv_nonneg _ (by norm_num)
      have he : (0 : ℤ) ≤ (e1 : ℤ) - e0 := by
        rename_i hne _
        have h5 : e0 ≤ e1 := le_of_not_lt hne
        have h6 : (e0 : ℤ) ≤ e1 := by exact_mod_cast h5
        omega
      have h7 : (0 : ℤ) ≤ e0 := Int.natCast_nonneg e0
      have h8 : (0 : ℤ) ≤ i := Int.natCast_nonneg i
      nlinarith [he, h7, h8]
    · split
      · exact le_refl 0
      · norm_num

end BC5

namespace BC5

/-- In 8-step mode (`endpoint0 = hi > endpoint1 = lo`) some palette slot is
within `(hi - lo)/7` of any sample in `[lo, hi]`. -/
theorem palette8_exists (lo hi x : ℕ) (hlh : lo < hi) (hx1 : lo ≤ x) (hx2 : x ≤ hi) :
    ∃ i, i ≤ 7 ∧ 7 * |(x : ℤ) - palette hi lo i| ≤ (hi : ℤ) - lo := by
  have hcast : ((lo : ℤ) < hi) ∧ ((lo : ℤ) ≤ x) ∧ ((x : ℤ) ≤ hi) :=
    ⟨by exact_mod_cast hlh, by exact_mod_cast hx1, by exact_mod_cast hx2⟩
  obtain ⟨hlh', hx1', hx2'⟩ := hcast
  set d : ℤ := (hi : ℤ) - lo with hd
  have hdpos : 0 < d := by omega
  set A : ℤ := 14 * ((hi : ℤ) - x) + d with hAdef
  have hA1 : d ≤ A := by omega
  have hA2 : A ≤ 15 * d := by omega
  set q : ℤ := A / (2 * d) with hqdef
  set r : ℤ := A % (2 * d) with hrdef
  have hqr : 2 * d * q + r = A := Int.ediv_add_emod A (2 * d)
  have hr0 : 0 ≤ r := Int.emod_nonneg A (by omega)
  have hr1 : r < 2 * d := Int.emod_lt_of_pos A (by omega)
  have hq0 : 0 ≤ q := Int.ediv_nonneg (by omega) (by omega)
  have hq7 : q ≤ 7 := by
    by_contra hcon
    push_neg at hcon
    have h8 : 8 ≤ q := by omega
    have : 2 * d * 8 ≤ 2 * d * q := by
      apply mul_le_mul_of_nonneg_left h8 (by omega)
    linarith
  refine ⟨q.toNat, by omega, ?_⟩
  have hiq : ((q.toNat : ℕ) : ℤ) = q := Int.toNat_of_nonneg hq0
  have hdq : d * q = ((hi : ℤ) - lo) * q := by rw [hd]
  have hpal : palette hi lo q.toNat = (14 * (x : ℤ) + (r - d) + 7) / 14 := by
    unfold palette
    rw [if_pos hlh]
    rw [hiq]
    congr 1
    linarith [hqr, hdq, hd, hAdef]
  rw [hpal]
  rcases abs_cases ((x : ℤ) - (14 * (x : ℤ) + (r - d) + 7) / 14) with ⟨habs, _⟩ | ⟨habs, _⟩ <;>
    rw [habs] <;> omega

/-- In 6-step mode (`endpoint0 = lo ≤ endpoint1 = hi`) some palette slot is
within `(hi - lo)/5` of any sample in `[lo, hi]`. -/
theorem palette6_exists (lo hi x : ℕ) (hlh : lo < hi) (hx1 : lo ≤ x) (hx2 : x ≤ hi) :
    ∃ i, i ≤ 7 ∧ 5 * |(x : ℤ) - palette lo hi i| ≤ (hi : ℤ) - lo := by
  have hcast : ((lo : ℤ) < hi) ∧ ((lo : ℤ) ≤ x) ∧ ((x : ℤ) ≤ hi) :=
    ⟨by exact_mod_cast hlh, by exact_mod_cast hx1, by exact_mod_cast hx2⟩
  obtain ⟨hlh', hx1', hx2'⟩ := hcast
  set d : ℤ := (hi : ℤ) - lo with hd
  have hdpos : 0 < d := by omega
  set A : ℤ := 10 * ((x : ℤ) - lo) + d with hAdef
  have hA1 : d ≤ A := by omega
  have hA2 : A ≤ 11 * d := by omega
  set q : ℤ := A / (2 * d) with hqdef
  set r : ℤ := A % (2 * d) with hrdef
  have hqr : 2 * d * q + r = A := Int.ediv_add_emod A (2 * d)
  have hr0 : 0 ≤ r := Int.emod_nonneg A (by omega)
  have hr1 : r < 2 * d := Int.emod_lt_of_pos A (by omega)
  have hq0 : 0 ≤ q := Int.ediv_nonneg (by omega) (by omega)
  have hq5 : q ≤ 5 := by
    by_contra hcon
    push_neg at hcon
    have h6 : 6 ≤ q := by omega
    have : 2 * d * 6 ≤ 2 * d * q := by
      apply mul_le_mul_of_nonneg_left h6 (by omega)
    linarith
  refine ⟨q.toNat, by omega, ?_⟩
  have hiq : ((q.toNat : ℕ) : ℤ) = q := Int.toNat_of_nonneg hq0
  have hdq : d * q = ((hi : ℤ) - lo) * q := by rw [hd]
  have hpal : palette lo hi q.toNat = (10 * (x : ℤ) + (d - r) + 5) / 10 := by
    unfold palette
    rw [if_neg (by omega : ¬ hi < lo), if_pos (by omega : q.toNat ≤ 5)]
    rw [hiq]
    congr 1
    linarith [hqr, hdq, hd, hAdef]
  rw [hpal]
  rcases abs_cases ((x : ℤ) - (10 * (x : ℤ) + (d - r) + 5) / 10) with ⟨habs, _⟩ | ⟨habs, _⟩ <;>
    rw [habs] <;> omega

end BC5

namespace BC5

/-- Decoding a non-degenerate encoded block reproduces, per sample, the
palette entry of the chosen nearest index. -/
theorem blockDecode_encode_branch (e0 e1 : ℕ) (s : List ℕ) (hlen : s.length = 16) :
    blockDecode (e0 :: e1 :: packIdx (s.map (nearestIdx e0 e1))) =
      s.map fun x => (palette e0 e1 (nearestIdx e0 e1 x)).toNat := by
  show (unpackIdx (packIdx (s.map (nearestIdx e0 e1)))).map
      (fun i => (palette e0 e1 i).toNat) = _
  rw [unpackIdx_packIdx]
  · rw [List.map_map]
    rfl
  · rw [List.length_map, hlen]
  · intro d hd
    rw [List.mem_map] at hd
    obtain ⟨x, _, rfl⟩ := hd
    have := nearestIdx_le7 e0 e1 x
    omega

/-- In either mode, the decoded sample at a valid position is the nearest
palette entry of the original sample there, and its distance obeys the
mode's bound. -/
theorem block_branch_bound (e0 e1 : ℕ) (s : List ℕ) (hlen : s.length = 16)
    (j : ℕ) (hj : j < 16)
    (bound : ℤ)
    (hex : ∃ i, i ≤ 7 ∧ bound * |(s.getD j 0 : ℤ) - palette e0 e1 i| ≤
      (blockHi s : ℤ) - blockLo s)
    (hbnd : 0 ≤ bound) :
    bound * |(s.getD j 0 : ℤ) -
        (((s.map fun x => (palette e0 e1 (nearestIdx e0 e1 x)).toNat).getD j 0 : ℕ) : ℤ)| ≤
      (blockHi s : ℤ) - blockLo s := by
  have hjs : j < s.length := by omega
  have hjm : j < (s.map fun x => (palette e0 e1 (nearestIdx e0 e1 x)).toNat).length := by
    rw [List.length_map]; omega
  rw [List.getD_eq_getElem _ 0 hjm, List.getElem_map, ← List.getD_eq_getElem s 0 hjs]
  have hnn : 0 ≤ palette e0 e1 (nearestIdx e0 e1 (s.getD j 0)) :=
    palette_nonneg e0 e1 _ (nearestIdx_le7 e0 e1 _)
  rw [Int.toNat_of_nonneg hnn]
  obtain ⟨i, hi7, hib⟩ := hex
  have hnear := nearestIdx_min e0 e1 (s.getD j 0) i hi7
  calc bound * |(s.getD j 0 : ℤ) - palette e0 e1 (nearestIdx e0 e1 (s.getD j 0))|
      ≤ bound * |(s.getD j 0 : ℤ) - palette e0 e1 i| :=
        mul_le_mul_of_nonneg_left hnear hbnd
    _ ≤ (blockHi s : ℤ) - blockLo s := hib

end BC5

/-- C8: for a non-degenerate block (`lo < hi` over its 16 byte samples),
every decoded sample differs from its original by at most `(hi-lo)/7` when
the 8-step mode was selected (stored `endpoint0 > endpoint1`) and by at
most `(hi-lo)/5` when the 6-step mode was selected — stated exactly over ℤ
as `7·|orig − dec| ≤ hi − lo`, resp. `5·|orig − dec| ≤ hi − lo`. -/
theorem block_quantization_error (s : List ℕ) (hlen : s.length = 16)
    (hbytes : ∀ x ∈ s, x ≤ 255) (hneq : blockLo s < blockHi s) (j : ℕ) (hj : j < 16) :
    (if (blockEncode s).getD 1 0 < (blockEncode s).getD 0 0 then (7 : ℤ) else 5) *
      |(s.getD j 0 : ℤ) - (((blockDecode (blockEncode s)).getD j 0 : ℕ) : ℤ)| ≤
      (blockHi s : ℤ) - blockLo s := by
  have hne : blockLo s ≠ blockHi s := Nat.ne_of_lt hneq
  have hjs : j < s.length := by omega
  have hxmem : s.getD j 0 ∈ s := by
    rw [List.getD_eq_getElem s 0 hjs]
    exact List.getElem_mem hjs
  have hxlo : blockLo s ≤ s.getD j 0 := blockLo_le s _ hxmem
  have hxhi : s.getD j 0 ≤ blockHi s := le_blockHi s _ hxmem
  have henc8 : totalSqErr (blockHi s) (blockLo s) s ≤ totalSqErr (blockLo s) (blockHi s) s →
      blockEncode s = blockHi s :: blockLo s ::
        packIdx (s.map (nearestIdx (blockHi s) (blockLo s))) := by
    intro h
    unfold blockEncode
    dsimp only
    rw [if_neg hne, if_pos h]
  have henc6 : ¬ totalSqErr (blockHi s) (blockLo s) s ≤ totalSqErr (blockLo s) (blockHi s) s →
      blockEncode s = blockLo s :: blockHi s ::
        packIdx (s.map (nearestIdx (blockLo s) (blockHi s))) := by
    intro h
    unfold blockEncode
    dsimp only
    rw [if_neg hne, if_neg h]
  by_cases herr : totalSqErr (blockHi s) (blockLo s) s ≤ totalSqErr (blockLo s) (blockHi s) s
  · rw [henc8 herr]
    have hg0 : (blockHi s :: blockLo s ::
        packIdx (s.map (nearestIdx (blockHi s) (blockLo s)))).getD 0 0 = blockHi s := rfl
    have hg1 : (blockHi s :: blockLo s ::
        packIdx (s.map (nearestIdx (blockHi s) (blockLo s)))).getD 1 0 = blockLo s := rfl
    rw [hg0, hg1, if_pos hneq, blockDecode_encode_branch _ _ s hlen]
    exact block_branch_bound _ _ s hlen j hj 7
      (palette8_exists (blockLo s) (blockHi s) (s.getD j 0) hneq hxlo hxhi) (by norm_num)
  · rw [henc6 herr]
    have hg0 : (blockLo s :: blockHi s ::
        packIdx (s.map (nearestIdx (blockLo s) (blockHi s)))).getD 0 0 = blockLo s := rfl
    have hg1 : (blockLo s :: blockHi s ::
        packIdx (s.map (nearestIdx (blockLo s) (blockHi s)))).getD 1 0 = blockHi s := rfl
    rw [hg0, hg1, if_neg (by omega : ¬ blockHi s < blockLo s),
      blockDecode_encode_branch _ _ s hlen]
    exact block_branch_bound _ _ s hlen j hj 5
      (palette6_exists (blockLo s) (blockHi s) (s.getD j 0) hneq hxlo hxhi) (by norm_num)

/-- Witness for C8 on a concrete ramp block at position `j = 1`. -/
theorem block_quantization_error_witness :
    (if (blockEncode [0, 10, 20, 30, 40, 50, 60, 70, 80, 90, 100, 110, 120, 130, 140,
        150]).getD 1 0 <
        (blockEncode [0, 10, 20, 30, 40, 50, 60, 70, 80, 90, 100, 110, 120, 130, 140,
          150]).getD 0 0 then (7 : ℤ) else 5) *
      |(([0, 10, 20, 30, 40, 50, 60, 70, 80, 90, 100, 110, 120, 130, 140,
          150] : List ℕ).getD 1 0 : ℤ) -
        (((blockDecode (blockEncode [0, 10, 20, 30, 40, 50, 60, 70, 80, 90, 100, 110, 120,
            130, 140, 150])).getD 1 0 : ℕ) : ℤ)| ≤
      ((blockHi [0, 10, 20, 30, 40, 50, 60, 70, 80, 90, 100, 110, 120, 130, 140, 150] : ℤ)) -
        blockLo [0, 10, 20, 30, 40, 50, 60, 70, 80, 90, 100, 110, 120, 130, 140, 150] :=
  block_quantization_error _ (by decide) (by decide) (by decide) 1 (by decide)

namespace BC5

/-- Lemma: `codecDecode` succeeds whenever the header parses and the block stream
has the expected length, and the output image then carries the header's
dimensions. -/
theorem codecDecode_ok (bytes : List ℕ) (w h : ℕ) (rest : List ℕ) (bm : BlueMode)
    (hhd : headerDecode bytes = .ok (w, h, rest))
    (hlen : rest.length = 16 * blockCols w * blockRows h) :
    ∃ out, codecDecode bytes bm = .ok out ∧ out.width = w ∧ out.height = h := by
  unfold codecDecode
  rw [hhd]
  dsimp only
  rw [if_pos hlen]
  exact ⟨_, rfl, rfl, rfl⟩

end BC5

/-- C4: for every image with `0 < width`, `0 < height` (representable in
the 32-bit header) where the width or the height is not a multiple of 4,
encoding and then decoding succeeds and yields an output image of exactly
`width × height` pixels — the edge-clamp padding added internally never
appears in the output. -/
theorem encode_decode_dims (img : Image) (bm : BlueMode)
    (hw : 0 < img.width) (hh : 0 < img.height)
    (hw32 : img.width < 2 ^ 32) (hh32 : img.height < 2 ^ 32)
    (_hpad : img.width % 4 ≠ 0 ∨ img.height % 4 ≠ 0) :
    ∃ bs out, codecEncode img = .ok bs ∧ codecDecode bs bm = .ok out ∧
      out.width = img.width ∧ out.height = img.height := by
  have henc : codecEncode img = .ok (headerEncode img.width img.height ++
      ((planeBlocks (redPlane img)).zip (planeBlocks (greenPlane img))).flatMap
        fun rg => rg.1 ++ rg.2) := by
    unfold codecEncode
    rw [if_neg (by omega)]
  have hhd := headerDecode_headerEncode_append img.width img.height
    (((planeBlocks (redPlane img)).zip (planeBlocks (greenPlane img))).flatMap
      fun rg => rg.1 ++ rg.2)
  rw [Nat.mod_eq_of_lt hw32, Nat.mod_eq_of_lt hh32] at hhd
  obtain ⟨out, hdec, how, hoh⟩ :=
    codecDecode_ok _ img.width img.height _ bm hhd (interleaved_length img)
  exact ⟨_, out, henc, hdec, how, hoh⟩

/-- Witness for C4 on a concrete 5×3 image (5 and 3 are not multiples of
4). -/
theorem encode_decode_dims_witness :
    ∃ bs out,
      codecEncode
          { width := 5, height := 3,
            pix := fun x y => ⟨x * 20 + y, x + y * 30, 0, 255⟩ } = .ok bs ∧
      codecDecode bs .Greyscale = .ok out ∧ out.width = 5 ∧ out.height = 3 :=
  encode_decode_dims _ .Greyscale (by decide) (by decide)
    (by norm_num) (by norm_num) (by decide)
